import Mathlib

/-!
Verification of the `string_builder` crate (`src/lib.rs`).

Shallow embedding conventions:
* Rust `String` (well-formed text) is modelled as `List Nat` of Unicode scalar
  values; well-formedness of a text value is `(·.all isScalar)`.
* Byte slices `&[u8]` are modelled as `List Nat` of byte values.
* `std::str::from_utf8` is modelled by `decodeUtf8`, which follows the
  per-character validation of Rust core's `run_utf8_validation`
  (strict UTF-8: 1–4 byte sequences, no overlongs, no surrogates,
  scalar values below 0x110000), returning either the decoded scalar
  values or a `Utf8Error` carrying `valid_up_to` and `error_len` as Rust does.
* `StringBuilder` wraps its buffer plus the (never observable) capacity hint
  of the backing `String`; `.unwrap()` panicking in `append_bytes` is
  modelled by returning `Option` (`none` = panic), and the fallible
  `try_append_bytes` returns `Except Utf8Error StringBuilder`.
-/

deriving instance DecidableEq for Except

/-- A byte in the range 0x80–0xBF is a UTF-8 continuation byte
(`utf8_is_cont_byte` in Rust core). -/
def isCont (b : Nat) : Bool := 0x80 ≤ b && b < 0xC0

/-- Allowed second byte of a 3-byte sequence, per the match in Rust core's
`run_utf8_validation`: `(0xE0, 0xA0..=0xBF) | (0xE1..=0xEC, 0x80..=0xBF) |
(0xED, 0x80..=0x9F) | (0xEE..=0xEF, 0x80..=0xBF)`. -/
def valid3 (b b1 : Nat) : Bool :=
  (b == 0xE0 && (0xA0 ≤ b1 && b1 ≤ 0xBF)) ||
  (0xE1 ≤ b && b ≤ 0xEC && isCont b1) ||
  (b == 0xED && (0x80 ≤ b1 && b1 ≤ 0x9F)) ||
  (0xEE ≤ b && b ≤ 0xEF && isCont b1)

/-- Allowed second byte of a 4-byte sequence, per Rust core:
`(0xF0, 0x90..=0xBF) | (0xF1..=0xF3, 0x80..=0xBF) | (0xF4, 0x80..=0x8F)`. -/
def valid4 (b b1 : Nat) : Bool :=
  (b == 0xF0 && (0x90 ≤ b1 && b1 ≤ 0xBF)) ||
  (0xF1 ≤ b && b ≤ 0xF3 && isCont b1) ||
  (b == 0xF4 && (0x80 ≤ b1 && b1 ≤ 0x8F))

/-- A Unicode scalar value: below 0x110000 and not a surrogate. -/
def isScalar (v : Nat) : Bool := v < 0xD800 || (0xE000 ≤ v && v < 0x110000)

/-- Result of decoding one character at the front of a byte list:
either a scalar value together with the number of bytes consumed, or the
`error_len` of the failure (`none` meaning the input ended inside a
character, as Rust's `Utf8Error::error_len` does). -/
inductive StepRes where
  | ok (v : Nat) (w : Nat)
  | err (len : Option Nat)
deriving DecidableEq, Repr

/-- Decode one character at the front of the byte list, mirroring one
iteration of Rust core's `run_utf8_validation` loop.  Shifts/masks of the
Rust code are expressed with division and remainder by powers of two. -/
def decodeStep : List Nat → StepRes
  | [] => .err none
  | b :: rest =>
    if b < 0x80 then .ok b 1
    else if b < 0xC2 then .err (some 1)
    else if b < 0xE0 then
      match rest with
      | [] => .err none
      | b1 :: _ =>
        if isCont b1 then .ok ((b - 0xC0) * 64 + (b1 - 0x80)) 2
        else .err (some 1)
    else if b < 0xF0 then
      match rest with
      | [] => .err none
      | b1 :: rest1 =>
        if valid3 b b1 then
          match rest1 with
          | [] => .err none
          | b2 :: _ =>
            if isCont b2 then
              .ok ((b - 0xE0) * 4096 + (b1 - 0x80) * 64 + (b2 - 0x80)) 3
            else .err (some 2)
        else .err (some 1)
    else if b < 0xF5 then
      match rest with
      | [] => .err none
      | b1 :: rest1 =>
        if valid4 b b1 then
          match rest1 with
          | [] => .err none
          | b2 :: rest2 =>
            if isCont b2 then
              match rest2 with
              | [] => .err none
              | b3 :: _ =>
                if isCont b3 then
                  .ok ((b - 0xF0) * 262144 + (b1 - 0x80) * 4096 +
                       (b2 - 0x80) * 64 + (b3 - 0x80)) 4
                else .err (some 3)
            else .err (some 2)
        else .err (some 1)
    else .err (some 1)

/-- The error type of `std::str::from_utf8`, with the same two fields as
Rust's `Utf8Error`. -/
structure Utf8Error where
  valid_up_to : Nat
  error_len : Option Nat
deriving DecidableEq, Repr

/-- Decode a whole byte list starting at byte offset `i` (the offset is only
used to report `valid_up_to`).  This is the loop of `run_utf8_validation`
together with the reinterpretation of the validated bytes as characters. -/
def decodeUtf8Go (i : Nat) : List Nat → Except Utf8Error (List Nat)
  | [] => .ok []
  | b :: rest =>
    if b < 0x80 then (decodeUtf8Go (i + 1) rest).map (b :: ·)
    else if b < 0xC2 then .error ⟨i, some 1⟩
    else if b < 0xE0 then
      match rest with
      | [] => .error ⟨i, none⟩
      | b1 :: rest1 =>
        if isCont b1 then
          (decodeUtf8Go (i + 2) rest1).map (((b - 0xC0) * 64 + (b1 - 0x80)) :: ·)
        else .error ⟨i, some 1⟩
    else if b < 0xF0 then
      match rest with
      | [] => .error ⟨i, none⟩
      | b1 :: rest1 =>
        if valid3 b b1 then
          match rest1 with
          | [] => .error ⟨i, none⟩
          | b2 :: rest2 =>
            if isCont b2 then
              (decodeUtf8Go (i + 3) rest2).map
                (((b - 0xE0) * 4096 + (b1 - 0x80) * 64 + (b2 - 0x80)) :: ·)
            else .error ⟨i, some 2⟩
        else .error ⟨i, some 1⟩
    else if b < 0xF5 then
      match rest with
      | [] => .error ⟨i, none⟩
      | b1 :: rest1 =>
        if valid4 b b1 then
          match rest1 with
          | [] => .error ⟨i, none⟩
          | b2 :: rest2 =>
            if isCont b2 then
              match rest2 with
              | [] => .error ⟨i, none⟩
              | b3 :: rest3 =>
                if isCont b3 then
                  (decodeUtf8Go (i + 4) rest3).map
                    (((b - 0xF0) * 262144 + (b1 - 0x80) * 4096 +
                      (b2 - 0x80) * 64 + (b3 - 0x80)) :: ·)
                else .error ⟨i, some 3⟩
            else .error ⟨i, some 2⟩
        else .error ⟨i, some 1⟩
    else .error ⟨i, some 1⟩

/-- The model of `std::str::from_utf8`. -/
def decodeUtf8 (bs : List Nat) : Except Utf8Error (List Nat) :=
  decodeUtf8Go 0 bs

/-- The standard UTF-8 encoding of one Unicode scalar value
(spec-side definition: used only to state what it means for a byte sequence
to be "the valid UTF-8 encoding of a text"). -/
def encodeChar (v : Nat) : List Nat :=
  if v < 0x80 then [v]
  else if v < 0x800 then [0xC0 + v / 64, 0x80 + v % 64]
  else if v < 0x10000 then
    [0xE0 + v / 4096, 0x80 + v / 64 % 64, 0x80 + v % 64]
  else
    [0xF0 + v / 262144, 0x80 + v / 4096 % 64, 0x80 + v / 64 % 64, 0x80 + v % 64]

/-- The standard UTF-8 encoding of a text (spec-side definition). -/
def encodeUtf8 (t : List Nat) : List Nat := (t.map encodeChar).flatten

/-- The builder from `src/lib.rs`: `pub struct StringBuilder(String)`.
The buffer holds the string content as scalar values; `cap` records the
capacity hint of the backing `String`, which no operation ever observes. -/
structure StringBuilder where
  cap : Nat
  buffer : List Nat
deriving DecidableEq, Repr

namespace StringBuilder

/-- Rust: `pub fn new() -> Self { Self(String::new()) }`. -/
def new : StringBuilder := ⟨0, []⟩

/-- Rust: `pub fn with_capacity(size: usize) -> Self
{ Self(String::with_capacity(size)) }`. -/
def with_capacity (size : Nat) : StringBuilder := ⟨size, []⟩

/-- Rust: `pub fn from(from: &str) -> Self { Self(from.to_string()) }`
(`from` is a Lean keyword, hence the name `fromStr`). -/
def fromStr (s : List Nat) : StringBuilder := ⟨0, s⟩

/-- Rust: `pub fn append(mut self, from: &str) -> Self
{ self.0.push_str(from); self }`. -/
def append (self : StringBuilder) (s : List Nat) : StringBuilder :=
  { self with buffer := self.buffer ++ s }

/-- Rust: `pub fn append_bytes(mut self, from: &[u8]) -> Self` with
`std::str::from_utf8(from).unwrap()`; the `unwrap` panic is modelled as
`none`. -/
def append_bytes (self : StringBuilder) (bs : List Nat) : Option StringBuilder :=
  match decodeUtf8 bs with
  | .ok s => some { self with buffer := self.buffer ++ s }
  | .error _ => none

/-- Rust: `pub fn try_append_bytes(mut self, from: &[u8])
-> Result<Self, std::str::Utf8Error>`, propagating the decode error with
`?`. -/
def try_append_bytes (self : StringBuilder) (bs : List Nat) :
    Except Utf8Error StringBuilder :=
  match decodeUtf8 bs with
  | .ok s => .ok { self with buffer := self.buffer ++ s }
  | .error e => .error e

/-- Rust: `pub fn to_string(self) -> String { self.0 }`. -/
def to_string (self : StringBuilder) : List Nat := self.buffer

end StringBuilder


/-- Issue one `append_bytes` call per piece, left to right; a panic
(`none`) stops the chain as it would in Rust. -/
def appendBytesAll (sb : StringBuilder) (ps : List (List Nat)) :
    Option StringBuilder :=
  ps.foldlM StringBuilder.append_bytes sb

/-- Issue one `try_append_bytes` call per piece, left to right, stopping at
the first `Utf8Error` as the `?` operator does in the crate's doctest. -/
def tryAppendBytesAll (sb : StringBuilder) (ps : List (List Nat)) :
    Except Utf8Error StringBuilder :=
  ps.foldlM StringBuilder.try_append_bytes sb

/-- One client-visible append operation of the builder API. -/
inductive Op where
  | app (s : List Nat)
  | appBytes (bs : List Nat)
  | tryAppBytes (bs : List Nat)

/-- Run one operation; `none` models a panic of `append_bytes`, or the
caller abandoning the chain on a `try_append_bytes` error. -/
def runOp (sb : StringBuilder) : Op → Option StringBuilder
  | .app s => some (sb.append s)
  | .appBytes bs => sb.append_bytes bs
  | .tryAppBytes bs => (sb.try_append_bytes bs).toOption

/-- Run a sequence of append operations in order. -/
def runOps (sb : StringBuilder) (ops : List Op) : Option StringBuilder :=
  ops.foldlM runOp sb

/-- Builder states reachable through the public API, starting from any
constructor; text arguments range over well-formed text only, since Rust's
`&str` arguments are well-formed by their type. -/
inductive Reachable : StringBuilder → Prop where
  | new : Reachable .new
  | with_capacity (n : Nat) : Reachable (.with_capacity n)
  | fromStr (s : List Nat) : s.all isScalar = true → Reachable (.fromStr s)
  | append (sb : StringBuilder) (s : List Nat) : Reachable sb →
      s.all isScalar = true → Reachable (sb.append s)
  | append_bytes (sb sb' : StringBuilder) (bs : List Nat) : Reachable sb →
      sb.append_bytes bs = some sb' → Reachable sb'
  | try_append_bytes (sb sb' : StringBuilder) (bs : List Nat) : Reachable sb →
      sb.try_append_bytes bs = .ok sb' → Reachable sb'

/-! Basic facts about single-character decoding. -/

set_option maxHeartbeats 2000000 in
/-- A successful single-character decode consumes between 1 and 4 available
bytes and produces a Unicode scalar value. -/
theorem decodeStep_pos {l : List Nat} {v w : Nat} (h : decodeStep l = .ok v w) :
    1 ≤ w ∧ w ≤ l.length ∧ isScalar v = true := by
  rcases l with _ | ⟨b, _ | ⟨b1, _ | ⟨b2, _ | ⟨b3, rest⟩⟩⟩⟩ <;>
    simp only [decodeStep] at h <;>
    (try split_ifs at h) <;>
    simp_all [isScalar, isCont, valid3, valid4] <;>
    omega

set_option maxHeartbeats 2000000 in
/-- A successful single-character decode only looks at the consumed bytes:
extending the input on the right does not change the result. -/
theorem decodeStep_append {l q : List Nat} {v w : Nat}
    (h : decodeStep l = .ok v w) : decodeStep (l ++ q) = .ok v w := by
  rcases l with _ | ⟨b, _ | ⟨b1, _ | ⟨b2, _ | ⟨b3, rest⟩⟩⟩⟩ <;>
    simp only [decodeStep, List.cons_append, List.nil_append] at h ⊢ <;>
    (try split_ifs at h ⊢) <;>
    first
      | exact h
      | simp_all

/-- The whole-input decoder is driven by `decodeStep`, one character at a
time. -/
theorem decodeGo_eq_step (i : Nat) (b : Nat) (rest : List Nat) :
    decodeUtf8Go i (b :: rest) =
      match decodeStep (b :: rest) with
      | .ok v w => (decodeUtf8Go (i + w) ((b :: rest).drop w)).map (v :: ·)
      | .err len => .error ⟨i, len⟩ := by
  rw [decodeUtf8Go.eq_def, decodeStep.eq_def]
  simp only []
  split_ifs <;>
    rcases rest with _ | ⟨b1, _ | ⟨b2, _ | ⟨b3, rest3⟩⟩⟩ <;>
    simp only [] <;>
    (try split_ifs) <;>
    simp [List.drop]

/-- Decoding distributes over concatenation when the first part decodes
successfully; the starting offset only affects error reporting, hence the
two sides may start at different offsets. -/
theorem decodeGo_append : ∀ (n : Nat) (p : List Nat), p.length ≤ n →
    ∀ (tp : List Nat) (i j : Nat) (q : List Nat), decodeUtf8Go i p = .ok tp →
    decodeUtf8Go j (p ++ q) = (decodeUtf8Go (j + p.length) q).map (tp ++ ·) := by
  intro n
  induction n with
  | zero =>
    intro p hp tp i j q h
    have hnil : p = [] := List.length_eq_zero.mp (Nat.le_zero.mp hp)
    subst hnil
    simp only [decodeUtf8Go] at h
    obtain rfl : ([] : List Nat) = tp := by injection h
    simp only [List.nil_append, List.length_nil, Nat.add_zero]
    cases decodeUtf8Go j q <;> simp [Except.map]
  | succ n ih =>
    intro p hp tp i j q h
    rcases p with _ | ⟨b, rest⟩
    · simp only [decodeUtf8Go] at h
      obtain rfl : ([] : List Nat) = tp := by injection h
      simp only [List.nil_append, List.length_nil, Nat.add_zero]
      cases decodeUtf8Go j q <;> simp [Except.map]
    · rw [decodeGo_eq_step i b rest] at h
      rw [List.cons_append, decodeGo_eq_step j b (rest ++ q)]
      cases hs : decodeStep (b :: rest) with
      | err len => rw [hs] at h; simp at h
      | ok v w =>
        rw [hs] at h
        simp only [] at h
        have hsq : decodeStep (b :: (rest ++ q)) = .ok v w := by
          have := decodeStep_append (q := q) hs
          simpa using this
        rw [hsq]
        simp only []
        obtain ⟨h1, h2, -⟩ := decodeStep_pos hs
        cases hgo : decodeUtf8Go (i + w) ((b :: rest).drop w) with
        | error e => rw [hgo] at h; simp [Except.map] at h
        | ok tp' =>
          rw [hgo] at h
          simp only [Except.map] at h
          obtain rfl : v :: tp' = tp := by injection h
          have hd : (b :: (rest ++ q)).drop w = (b :: rest).drop w ++ q := by
            rw [← List.cons_append]
            exact List.drop_append_of_le_length h2
          rw [hd]
          have hlen : ((b :: rest).drop w).length ≤ n := by
            simp only [List.length_drop, List.length_cons]
            simp only [List.length_cons] at hp
            omega
          rw [ih _ hlen tp' (i + w) (j + w) q hgo]
          have hIdx : j + w + ((b :: rest).drop w).length = j + (b :: rest).length := by
            simp only [List.length_drop, List.length_cons]
            simp only [List.length_cons] at h2
            omega
          rw [hIdx]
          cases decodeUtf8Go (j + (b :: rest).length) q <;> simp [Except.map]

/-- The starting offset does not affect successful decoding. -/
theorem decodeGo_shift {p tp : List Nat} {i j : Nat}
    (h : decodeUtf8Go i p = .ok tp) : decodeUtf8Go j p = .ok tp := by
  have := decodeGo_append p.length p le_rfl tp i j [] h
  simpa [decodeUtf8Go, Except.map] using this

/-- `from_utf8` distributes over concatenation of individually valid byte
sequences. -/
theorem decodeUtf8_append {p q tp tq : List Nat}
    (hp : decodeUtf8 p = .ok tp) (hq : decodeUtf8 q = .ok tq) :
    decodeUtf8 (p ++ q) = .ok (tp ++ tq) := by
  unfold decodeUtf8 at *
  rw [decodeGo_append p.length p le_rfl tp 0 0 q hp, decodeGo_shift hq]
  simp [Except.map]

/-- Successfully decoded output consists of Unicode scalar values only. -/
theorem decodeGo_all_scalar : ∀ (n : Nat) (p : List Nat), p.length ≤ n →
    ∀ (t : List Nat) (i : Nat), decodeUtf8Go i p = .ok t →
    t.all isScalar = true := by
  intro n
  induction n with
  | zero =>
    intro p hp t i h
    have hnil : p = [] := List.length_eq_zero.mp (Nat.le_zero.mp hp)
    subst hnil
    simp only [decodeUtf8Go] at h
    obtain rfl : ([] : List Nat) = t := by injection h
    simp
  | succ n ih =>
    intro p hp t i h
    rcases p with _ | ⟨b, rest⟩
    · simp only [decodeUtf8Go] at h
      obtain rfl : ([] : List Nat) = t := by injection h
      simp
    · rw [decodeGo_eq_step i b rest] at h
      cases hs : decodeStep (b :: rest) with
      | err len => rw [hs] at h; simp at h
      | ok v w =>
        rw [hs] at h
        simp only [] at h
        cases hgo : decodeUtf8Go (i + w) ((b :: rest).drop w) with
        | error e => rw [hgo] at h; simp [Except.map] at h
        | ok t' =>
          rw [hgo] at h
          simp only [Except.map] at h
          obtain rfl : v :: t' = t := by injection h
          obtain ⟨h1, h2, h3⟩ := decodeStep_pos hs
          have hlen : ((b :: rest).drop w).length ≤ n := by
            simp only [List.length_drop, List.length_cons]
            simp only [List.length_cons] at hp
            omega
          have ht' := ih _ hlen t' (i + w) hgo
          simp [List.all_cons, h3, ht']

/-- The encoding of a character is never empty. -/
theorem encodeChar_ne_nil (v : Nat) : encodeChar v ≠ [] := by
  unfold encodeChar
  split_ifs <;> simp

set_option maxHeartbeats 2000000 in
/-- Decoding one character from the front of an encoded scalar value
recovers that value and consumes exactly its encoding. -/
theorem decodeStep_encodeChar {v : Nat} (hv : isScalar v = true)
    (rest : List Nat) :
    decodeStep (encodeChar v ++ rest) = .ok v (encodeChar v).length := by
  have hv' : v < 0xD800 ∨ (0xE000 ≤ v ∧ v < 0x110000) := by
    simpa [isScalar, Bool.or_eq_true, Bool.and_eq_true,
      decide_eq_true_eq] using hv
  unfold encodeChar
  split_ifs <;>
    simp only [List.cons_append, List.nil_append, decodeStep,
      List.length_cons, List.length_nil] <;>
    split_ifs <;>
    simp_all [isCont, valid3, valid4] <;>
    omega

/-- Driver version of `decodeStep_encodeChar`. -/
theorem decodeGo_encodeChar {v : Nat} (hv : isScalar v = true) (i : Nat)
    (rest : List Nat) :
    decodeUtf8Go i (encodeChar v ++ rest) =
      (decodeUtf8Go (i + (encodeChar v).length) rest).map (v :: ·) := by
  obtain ⟨b, l, hb⟩ : ∃ b l, encodeChar v = b :: l := by
    cases hc : encodeChar v with
    | nil => exact absurd hc (encodeChar_ne_nil v)
    | cons b l => exact ⟨b, l, rfl⟩
  have hstep := decodeStep_encodeChar hv rest
  rw [hb] at hstep ⊢
  rw [List.cons_append] at hstep ⊢
  rw [decodeGo_eq_step i b (l ++ rest), hstep]
  simp only []
  rw [show b :: (l ++ rest) = (b :: l) ++ rest from rfl, List.drop_left]

/-- Decoding an encoded well-formed text in front of any remainder yields
that text followed by the decode of the remainder. -/
theorem decodeGo_encodeUtf8 : ∀ (t : List Nat), t.all isScalar = true →
    ∀ (i : Nat) (rest : List Nat),
    decodeUtf8Go i (encodeUtf8 t ++ rest) =
      (decodeUtf8Go (i + (encodeUtf8 t).length) rest).map (t ++ ·) := by
  intro t
  induction t with
  | nil =>
    intro _ i rest
    simp only [encodeUtf8, List.map_nil, List.flatten_nil, List.nil_append,
      List.length_nil, Nat.add_zero]
    cases decodeUtf8Go i rest <;> simp [Except.map]
  | cons v t ih =>
    intro hall i rest
    simp only [List.all_cons, Bool.and_eq_true] at hall
    have henc : encodeUtf8 (v :: t) = encodeChar v ++ encodeUtf8 t := by
      simp [encodeUtf8]
    rw [henc, List.append_assoc, decodeGo_encodeChar hall.1, ih hall.2]
    have hIdx : i + (encodeChar v).length + (encodeUtf8 t).length =
        i + (encodeChar v ++ encodeUtf8 t).length := by
      simp only [List.length_append]
      omega
    rw [hIdx]
    cases decodeUtf8Go (i + (encodeChar v ++ encodeUtf8 t).length) rest <;>
      simp [Except.map]

/-- Decoding is a left inverse of encoding on well-formed text. -/
theorem decodeUtf8_encodeUtf8 {t : List Nat} (h : t.all isScalar = true) :
    decodeUtf8 (encodeUtf8 t) = .ok t := by
  have hmain := decodeGo_encodeUtf8 t h 0 []
  simpa [decodeUtf8, decodeUtf8Go, Except.map] using hmain

/-- A concatenation of individually valid pieces is valid. -/
theorem decodeUtf8_flatten {ps : List (List Nat)}
    (h : ∀ p ∈ ps, ∃ t, decodeUtf8 p = .ok t) :
    ∃ t, decodeUtf8 ps.flatten = .ok t := by
  induction ps with
  | nil => exact ⟨[], rfl⟩
  | cons p ps ih =>
    obtain ⟨tp, hp⟩ := h p (List.mem_cons_self p ps)
    obtain ⟨tq, hq⟩ := ih (fun r hr => h r (List.mem_cons_of_mem _ hr))
    exact ⟨tp ++ tq, by rw [List.flatten_cons]; exact decodeUtf8_append hp hq⟩

/-- One operation acts on the buffer independently of the capacity hint. -/
theorem runOp_cap (c c' : Nat) (buf : List Nat) (op : Op) :
    runOp ⟨c, buf⟩ op =
      (runOp ⟨c', buf⟩ op).map (fun sb => ⟨c, sb.buffer⟩) := by
  cases op with
  | app s => simp [runOp, StringBuilder.append]
  | appBytes bs =>
    simp only [runOp, StringBuilder.append_bytes]
    cases decodeUtf8 bs <;> simp
  | tryAppBytes bs =>
    simp only [runOp, StringBuilder.try_append_bytes]
    cases decodeUtf8 bs <;> simp [Except.toOption]

/-- A whole chain of operations acts on the buffer independently of the
capacity hint. -/
theorem runOps_cap : ∀ (ops : List Op) (c c' : Nat) (buf : List Nat),
    runOps ⟨c, buf⟩ ops =
      (runOps ⟨c', buf⟩ ops).map (fun sb => ⟨c, sb.buffer⟩) := by
  intro ops
  induction ops with
  | nil => intro c c' buf; rfl
  | cons op ops ih =>
    intro c c' buf
    simp only [runOps, List.foldlM_cons]
    rw [runOp_cap c c' buf op]
    cases h : runOp ⟨c', buf⟩ op with
    | none => simp
    | some sb' =>
      simp only [Option.map_some', Option.some_bind]
      have hmain := ih c sb'.cap sb'.buffer
      simpa [runOps] using hmain

/-- C1: for every builder whose buffer holds text `s` and every fragment
`f`, `append f` succeeds and yields buffer `s ++ f`; in particular
`from("").append(a).append(b).to_string() = a ++ b`. -/
theorem claim_C1 (sb : StringBuilder) (f a b : List Nat) :
    (sb.append f).buffer = sb.buffer ++ f ∧
    (((StringBuilder.fromStr []).append a).append b).to_string = a ++ b := by
  refine ⟨rfl, ?_⟩
  simp [StringBuilder.fromStr, StringBuilder.append, StringBuilder.to_string]

/-- C2: `append_bytes` appends the decoded characters and returns the
builder on a completely valid byte sequence, and panics (modelled as
`none`) on any invalid or incomplete sequence — including a multi-byte
character split across two calls, whose incomplete prefix already fails. -/
theorem claim_C2 (sb : StringBuilder) (bs : List Nat) :
    (∀ t, decodeUtf8 bs = .ok t →
      sb.append_bytes bs = some { sb with buffer := sb.buffer ++ t }) ∧
    (∀ e, decodeUtf8 bs = .error e → sb.append_bytes bs = none) := by
  constructor
  · intro t ht
    simp [StringBuilder.append_bytes, ht]
  · intro e he
    simp [StringBuilder.append_bytes, he]

/-- Witness for C2: decoding the two bytes of `é` appends the character;
the crate's own panic test input, bytes 0..7 of the sample sentence (the
incomplete prefix of a split `é`), panics. -/
theorem claim_C2_witness :
    StringBuilder.new.append_bytes [0xC3, 0xA9] =
      some { StringBuilder.new with
              buffer := StringBuilder.new.buffer ++ [0xE9] } ∧
    StringBuilder.new.append_bytes
      [0xE2, 0x80, 0x9E, 0x50, 0x65, 0x6C, 0xC3] = none :=
  ⟨(claim_C2 StringBuilder.new [0xC3, 0xA9]).1 [0xE9] rfl,
   (claim_C2 StringBuilder.new
     [0xE2, 0x80, 0x9E, 0x50, 0x65, 0x6C, 0xC3]).2 ⟨6, none⟩ rfl⟩

/-- C3: `try_append_bytes` succeeds exactly on completely valid byte
sequences, returning the builder with the decoded characters appended, and
returns the decode error (not the builder) otherwise. -/
theorem claim_C3 (sb : StringBuilder) (bs : List Nat) :
    (∀ t, decodeUtf8 bs = .ok t →
      sb.try_append_bytes bs = .ok { sb with buffer := sb.buffer ++ t }) ∧
    (∀ e, decodeUtf8 bs = .error e → sb.try_append_bytes bs = .error e) ∧
    ((∃ sb', sb.try_append_bytes bs = .ok sb') ↔
      ∃ t, decodeUtf8 bs = .ok t) := by
  refine ⟨fun t ht => by simp [StringBuilder.try_append_bytes, ht],
    fun e he => by simp [StringBuilder.try_append_bytes, he], ?_⟩
  unfold StringBuilder.try_append_bytes
  cases h : decodeUtf8 bs <;> simp

/-- Witness for C3: success on the encoding of `é`, a `Utf8Error` on its
lone first byte (an incomplete sequence). -/
theorem claim_C3_witness :
    StringBuilder.new.try_append_bytes [0xC3, 0xA9] =
      .ok { StringBuilder.new with
             buffer := StringBuilder.new.buffer ++ [0xE9] } ∧
    StringBuilder.new.try_append_bytes [0xC3] = .error ⟨0, none⟩ :=
  ⟨(claim_C3 StringBuilder.new [0xC3, 0xA9]).1 [0xE9] rfl,
   (claim_C3 StringBuilder.new [0xC3]).2.1 ⟨0, none⟩ rfl⟩

/-- C4: `append_bytes` and `try_append_bytes` implement the identical
decoding rule: one panics exactly when the other errors, and on success
they return the same builder. -/
theorem claim_C4 (sb : StringBuilder) (bs : List Nat) :
    (sb.append_bytes bs = none ↔
      ∃ e, sb.try_append_bytes bs = .error e) ∧
    (∀ sb', sb.append_bytes bs = some sb' ↔
      sb.try_append_bytes bs = .ok sb') := by
  unfold StringBuilder.append_bytes StringBuilder.try_append_bytes
  cases h : decodeUtf8 bs <;> simp

/-- Witness for C4: a lone continuation byte panics (it also errors), and a
valid ASCII byte succeeds identically through both paths. -/
theorem claim_C4_witness :
    StringBuilder.new.append_bytes [0x80] = none ∧
    StringBuilder.new.try_append_bytes [0x61] = .ok ⟨0, [0x61]⟩ :=
  ⟨(claim_C4 StringBuilder.new [0x80]).1.mpr ⟨⟨0, some 1⟩, rfl⟩,
   ((claim_C4 StringBuilder.new [0x61]).2 ⟨0, [0x61]⟩).mp rfl⟩

/-- C5: round-trip through encoding — for every byte sequence that is the
valid UTF-8 encoding of a well-formed text `t`, both append forms on a new
builder extract exactly `t`. -/
theorem claim_C5 (t bs : List Nat) (hwf : t.all isScalar = true)
    (henc : bs = encodeUtf8 t) :
    (StringBuilder.new.append_bytes bs).map StringBuilder.to_string =
      some t ∧
    (StringBuilder.new.try_append_bytes bs).map StringBuilder.to_string =
      .ok t := by
  subst henc
  have hd := decodeUtf8_encodeUtf8 hwf
  constructor
  · simp [StringBuilder.append_bytes, hd, StringBuilder.to_string,
      StringBuilder.new]
  · simp [StringBuilder.try_append_bytes, hd, StringBuilder.to_string,
      StringBuilder.new, Except.map]

/-- Witness for C5: the text `Pelé` and its encoding
`50 65 6c c3 a9`. -/
theorem claim_C5_witness :
    (StringBuilder.new.append_bytes [0x50, 0x65, 0x6C, 0xC3, 0xA9]).map
        StringBuilder.to_string = some [0x50, 0x65, 0x6C, 0xE9] ∧
    (StringBuilder.new.try_append_bytes
        [0x50, 0x65, 0x6C, 0xC3, 0xA9]).map
        StringBuilder.to_string = .ok [0x50, 0x65, 0x6C, 0xE9] :=
  claim_C5 [0x50, 0x65, 0x6C, 0xE9] [0x50, 0x65, 0x6C, 0xC3, 0xA9]
    (by decide) (by decide)

/-- C6: splitting a byte sequence into consecutive pieces cut only at
character boundaries (equivalently: each piece is itself completely valid)
and issuing one `append_bytes` / `try_append_bytes` call per piece, in
order, is the same as one call on the whole sequence. -/
theorem claim_C6 : ∀ (ps : List (List Nat)),
    (∀ p ∈ ps, ∃ t, decodeUtf8 p = .ok t) → ∀ (sb : StringBuilder),
    appendBytesAll sb ps = sb.append_bytes ps.flatten ∧
    tryAppendBytesAll sb ps = sb.try_append_bytes ps.flatten := by
  intro ps
  induction ps with
  | nil =>
    intro _ sb
    constructor
    · simp [appendBytesAll, StringBuilder.append_bytes, decodeUtf8,
        decodeUtf8Go]
    · simp [tryAppendBytesAll, StringBuilder.try_append_bytes, decodeUtf8,
        decodeUtf8Go, pure, Except.pure]
  | cons p ps ih =>
    intro h sb
    obtain ⟨tp, hp⟩ := h p (List.mem_cons_self p ps)
    have hall := fun r hr => h r (List.mem_cons_of_mem p hr)
    obtain ⟨tq, hq⟩ := decodeUtf8_flatten hall
    have hfl : decodeUtf8 (p ++ ps.flatten) = .ok (tp ++ tq) :=
      decodeUtf8_append hp hq
    have h1 : sb.append_bytes p =
        some { sb with buffer := sb.buffer ++ tp } := by
      simp [StringBuilder.append_bytes, hp]
    have h1t : sb.try_append_bytes p =
        .ok { sb with buffer := sb.buffer ++ tp } := by
      simp [StringBuilder.try_append_bytes, hp]
    constructor
    · calc appendBytesAll sb (p :: ps)
          = appendBytesAll { sb with buffer := sb.buffer ++ tp } ps := by
            simp [appendBytesAll, h1]
        _ = { sb with
              buffer := sb.buffer ++ tp }.append_bytes ps.flatten :=
            (ih hall _).1
        _ = sb.append_bytes (p :: ps).flatten := by
            simp [StringBuilder.append_bytes, hq, hfl, List.append_assoc]
    · calc tryAppendBytesAll sb (p :: ps)
          = tryAppendBytesAll { sb with buffer := sb.buffer ++ tp } ps := by
            simp only [tryAppendBytesAll, List.foldlM_cons, h1t]
            rfl
        _ = { sb with
              buffer := sb.buffer ++ tp }.try_append_bytes ps.flatten :=
            (ih hall _).2
        _ = sb.try_append_bytes (p :: ps).flatten := by
            simp [StringBuilder.try_append_bytes, hq, hfl,
              List.append_assoc]

/-- Witness for C6: the crate's test split of
`„Pelé hat alles verändert.` into bytes 0..9, `hat alles`, 18..30. -/
theorem claim_C6_witness :
    appendBytesAll StringBuilder.new
        [[0xE2, 0x80, 0x9E, 0x50, 0x65, 0x6C, 0xC3, 0xA9, 0x20],
         [0x68, 0x61, 0x74, 0x20, 0x61, 0x6C, 0x6C, 0x65, 0x73],
         [0x20, 0x76, 0x65, 0x72, 0xC3, 0xA4, 0x6E, 0x64, 0x65, 0x72,
          0x74, 0x2E]] =
      StringBuilder.new.append_bytes
        ([[0xE2, 0x80, 0x9E, 0x50, 0x65, 0x6C, 0xC3, 0xA9, 0x20],
          [0x68, 0x61, 0x74, 0x20, 0x61, 0x6C, 0x6C, 0x65, 0x73],
          [0x20, 0x76, 0x65, 0x72, 0xC3, 0xA4, 0x6E, 0x64, 0x65, 0x72,
           0x74, 0x2E]] : List (List Nat)).flatten ∧
    tryAppendBytesAll StringBuilder.new
        [[0xE2, 0x80, 0x9E, 0x50, 0x65, 0x6C, 0xC3, 0xA9, 0x20],
         [0x68, 0x61, 0x74, 0x20, 0x61, 0x6C, 0x6C, 0x65, 0x73],
         [0x20, 0x76, 0x65, 0x72, 0xC3, 0xA4, 0x6E, 0x64, 0x65, 0x72,
          0x74, 0x2E]] =
      StringBuilder.new.try_append_bytes
        ([[0xE2, 0x80, 0x9E, 0x50, 0x65, 0x6C, 0xC3, 0xA9, 0x20],
          [0x68, 0x61, 0x74, 0x20, 0x61, 0x6C, 0x6C, 0x65, 0x73],
          [0x20, 0x76, 0x65, 0x72, 0xC3, 0xA4, 0x6E, 0x64, 0x65, 0x72,
           0x74, 0x2E]] : List (List Nat)).flatten :=
  claim_C6 _
    (by
      intro p hp
      simp only [List.mem_cons, List.not_mem_nil, or_false] at hp
      rcases hp with rfl | rfl | rfl
      · exact ⟨[0x201E, 0x50, 0x65, 0x6C, 0xE9, 0x20], rfl⟩
      · exact ⟨[0x68, 0x61, 0x74, 0x20, 0x61, 0x6C, 0x6C, 0x65, 0x73], rfl⟩
      · exact ⟨[0x20, 0x76, 0x65, 0x72, 0xE4, 0x6E, 0x64, 0x65, 0x72,
          0x74, 0x2E], rfl⟩)
    StringBuilder.new

/-- C7: every builder state reachable through the public API has a buffer
of well-formed text only. -/
theorem claim_C7 (sb : StringBuilder) (h : Reachable sb) :
    sb.buffer.all isScalar = true := by
  induction h with
  | new => rfl
  | with_capacity n => rfl
  | fromStr s hs => exact hs
  | append sb s _ hs ih =>
    simp [StringBuilder.append, List.all_append, ih, hs]
  | append_bytes sb sb' bs _ hab ih =>
    unfold StringBuilder.append_bytes at hab
    cases hd : decodeUtf8 bs with
    | error e => rw [hd] at hab; simp at hab
    | ok t =>
      rw [hd] at hab
      simp only [Option.some.injEq] at hab
      subst hab
      have ht := decodeGo_all_scalar bs.length bs le_rfl t 0 hd
      simp [List.all_append, ih, ht]
  | try_append_bytes sb sb' bs _ hab ih =>
    unfold StringBuilder.try_append_bytes at hab
    cases hd : decodeUtf8 bs with
    | error e => rw [hd] at hab; simp at hab
    | ok t =>
      rw [hd] at hab
      simp only [Except.ok.injEq] at hab
      subst hab
      have ht := decodeGo_all_scalar bs.length bs le_rfl t 0 hd
      simp [List.all_append, ih, ht]

/-- Witness for C7: a builder constructed from `Pelé` and extended by a
successful byte append is reachable and has a well-formed buffer. -/
theorem claim_C7_witness :
    ((StringBuilder.fromStr [0x50, 0x65, 0x6C, 0xE9]).append
        [0x20]).buffer.all isScalar = true :=
  claim_C7 _
    (Reachable.append _ _ (Reachable.fromStr _ (by decide)) (by decide))

/-- C8: `new` and `with_capacity n` both extract the empty text, and the
capacity hint never changes observable content: any chain of append
operations started from `with_capacity n` extracts the same text as the
same chain started from `new`. -/
theorem claim_C8 (n : Nat) (ops : List Op) :
    StringBuilder.new.to_string = [] ∧
    (StringBuilder.with_capacity n).to_string = [] ∧
    (runOps (StringBuilder.with_capacity n) ops).map StringBuilder.to_string =
      (runOps StringBuilder.new ops).map StringBuilder.to_string := by
  refine ⟨rfl, rfl, ?_⟩
  rw [show StringBuilder.with_capacity n = ⟨n, []⟩ from rfl,
    show StringBuilder.new = ⟨0, []⟩ from rfl, runOps_cap ops n 0 []]
  cases runOps ⟨0, []⟩ ops <;> simp [StringBuilder.to_string]

/-- C9: appending an empty fragment or an empty byte sequence is an
identity on the builder that still returns it. -/
theorem claim_C9 (sb : StringBuilder) :
    sb.append [] = sb ∧ sb.append_bytes [] = some sb ∧
    sb.try_append_bytes [] = .ok sb := by
  refine ⟨?_, ?_, ?_⟩ <;>
    simp [StringBuilder.append, StringBuilder.append_bytes,
      StringBuilder.try_append_bytes, decodeUtf8, decodeUtf8Go]

/-- C10: from any builder state, appending bytes that decode to text `t`
is the same as appending `t` as a text fragment, through both byte-append
forms. -/
theorem claim_C10 (sb : StringBuilder) (bs t : List Nat)
    (h : decodeUtf8 bs = .ok t) :
    sb.append_bytes bs = some (sb.append t) ∧
    sb.try_append_bytes bs = .ok (sb.append t) := by
  constructor <;>
    simp [StringBuilder.append_bytes, StringBuilder.try_append_bytes,
      StringBuilder.append, h]

/-- Witness for C10: the four bytes `f0 9f 98 80` decode to the single
scalar value 0x1F600, appended on top of a non-empty buffer. -/
theorem claim_C10_witness :
    (StringBuilder.fromStr [0x61]).append_bytes [0xF0, 0x9F, 0x98, 0x80] =
      some ((StringBuilder.fromStr [0x61]).append [0x1F600]) ∧
    (StringBuilder.fromStr [0x61]).try_append_bytes
        [0xF0, 0x9F, 0x98, 0x80] =
      .ok ((StringBuilder.fromStr [0x61]).append [0x1F600]) :=
  claim_C10 (StringBuilder.fromStr [0x61]) [0xF0, 0x9F, 0x98, 0x80]
    [0x1F600] rfl
